import Mathlib

/-!
Shallow embedding of `src/screen.rs` (terminal rendering surface of the rim
editor): geometry types (`Cell`, `Size`, `Rect`, `CellIterator`), the diff
cache (`ScreenBuffer`), the screen facade (`Screen`) and the raw terminal
emitter, together with proofs of the specification claims about them.

Machine integers: the Rust code stores coordinates in `u16` and casts through
`i16` in `Sub for Cell`.  We model values as `Nat` and apply the wrap-around
explicitly at every arithmetic operation, using release-mode (wrapping)
semantics for overflow.  Fallible operations (a Rust panic, e.g. an
out-of-bounds `Vec` index or an `unwrap` on a failed terminal write) are
modelled with `Option`, `none` being the panic.
-/

set_option autoImplicit false

namespace Rim

/-- The 16 terminal colors of `enum Color` in `src/screen.rs`. -/
inductive Color : Type
  | black | red | green | yellow | blue | magenta | cyan | white
  | brightBlack | brightRed | brightGreen | brightYellow
  | brightBlue | brightMagenta | brightCyan | brightWhite
deriving DecidableEq

/-- `struct Size(pub u16, pub u16)`: extents of a grid (rows, columns). -/
structure Size where
  rows : Nat
  cols : Nat
deriving DecidableEq

/-- `struct Cell(pub u16, pub u16)`: a zero-indexed grid coordinate. -/
structure Cell where
  row : Nat
  col : Nat
deriving DecidableEq

/-- `u16` wrap-around, applied where Rust `u16` arithmetic may overflow. -/
def u16wrap (n : Nat) : Nat := n % 65536

/-- The value of `x as i16` for a `u16` value `x` (two's complement reinterpretation). -/
def toI16 (n : Nat) : Int := if n < 32768 then (n : Int) else (n : Int) - 65536

/-- Wrap an integer into the `i16` range `[-32768, 32767]` (release-mode
overflow semantics of `i16` subtraction). -/
def wrapI16 (z : Int) : Int := (z + 32768) % 65536 - 32768

/-- The component operation of `impl Sub for Cell`:
`cmp::max(r1 as i16 - r2 as i16, 0) as u16`. -/
def u16subVia16 (a b : Nat) : Nat := (max (wrapI16 (toI16 a - toI16 b)) 0).toNat

/-- Wrapping `u16` subtraction (used for `self.width - 1` in `CellIterator::next`). -/
def u16sub (a b : Nat) : Nat := (a % 65536 + 65536 - b % 65536) % 65536

/-- `impl Add for Cell`: component-wise `u16` addition. -/
def Cell.add (a b : Cell) : Cell :=
  ⟨u16wrap (a.row + b.row), u16wrap (a.col + b.col)⟩

/-- `impl Sub for Cell`: the component-wise difference computed through `i16`
casts and floored at zero. -/
def Cell.sub (a b : Cell) : Cell :=
  ⟨u16subVia16 a.row b.row, u16subVia16 a.col b.col⟩

/-- `Cell::within`: `some` iff both coordinates are strictly below `size`. -/
def Cell.within (c : Cell) (s : Size) : Option Cell :=
  if c.row < s.rows ∧ c.col < s.cols then some c else none

/-- `struct Rect(pub Cell, pub Size)`: a region given by origin and extent. -/
structure Rect where
  origin : Cell
  size : Size
deriving DecidableEq

/-- `CellIterator`: state of the lazy region-cell producer. -/
structure CellIterator where
  next_cell : Option Cell
  size : Size
  width : Nat
deriving DecidableEq

/-- `CellIterator::new`: absolute end is `start + size`; the initial cell is
`start` if it lies within that absolute extent. -/
def CellIterator.new (r : Rect) : CellIterator :=
  let e := Cell.add r.origin ⟨r.size.rows, r.size.cols⟩
  let abs_size : Size := ⟨e.row, e.col⟩
  { next_cell := r.origin.within abs_size
    size := abs_size
    width := r.size.cols }

/-- The advance step inside `CellIterator::next`: try one column to the
right, else return to the region's start column on the next row. -/
def CellIterator.advance (s : CellIterator) (cell : Cell) : Option Cell :=
  match (Cell.add cell ⟨0, 1⟩).within s.size with
  | some c => some c
  | none => ((Cell.sub cell ⟨0, u16sub s.width 1⟩).add ⟨1, 0⟩).within s.size

/-- `CellIterator::next`: return the stored cell and advance. -/
def CellIterator.next (s : CellIterator) : Option Cell × CellIterator :=
  (s.next_cell, { s with next_cell := s.next_cell.bind s.advance })

/-- Collect the iterator's yields (fuel-bounded; the fuel only needs to
exceed the number of cells produced). -/
def CellIterator.toList : CellIterator → Nat → List Cell
  | _, 0 => []
  | s, fuel + 1 =>
    match s.next_cell with
    | none => []
    | some c => c :: (s.next).2.toList fuel

/-- The row-major enumeration of a region's cells, as the spec words it:
left-to-right within a row, rows top-to-bottom. -/
def rowMajorCells (r : Rect) : List Cell :=
  (List.range r.size.rows).flatMap fun i =>
    (List.range r.size.cols).map fun j => ⟨r.origin.row + i, r.origin.col + j⟩

/-- The cell at row-major index `k` of a region. -/
def cellOfIdx (r : Rect) (k : Nat) : Cell :=
  ⟨r.origin.row + k / r.size.cols, r.origin.col + k % r.size.cols⟩

/-- What a diff-cache entry stores: character, foreground, background. -/
abbrev CellContent := Char × Color × Color

/-- `struct ScreenBuffer`: the diff cache, a row-major vector of optional
cell contents plus the stored width. -/
structure ScreenBuffer where
  cells : List (Option CellContent)
  width : Nat
deriving DecidableEq

/-- `ScreenBuffer::new`. -/
def ScreenBuffer.new : ScreenBuffer := ⟨[], 0⟩

/-- `ScreenBuffer::resize`: grow by appending empty entries or shrink by
truncating to the new row-major extent; store the new width. -/
def ScreenBuffer.resize (b : ScreenBuffer) (sz : Size) : ScreenBuffer :=
  let current_size := b.cells.length
  let new_size := sz.rows * sz.cols
  let cells :=
    if current_size < new_size then
      b.cells ++ List.replicate (new_size - current_size) none
    else if new_size < current_size then
      b.cells.take new_size
    else b.cells
  { cells := cells, width := sz.cols }

/-- `ScreenBuffer::clear`: every entry becomes empty. -/
def ScreenBuffer.clearBuf (b : ScreenBuffer) : ScreenBuffer :=
  { b with cells := b.cells.map fun _ => none }

/-- The index list of the `nones()` closure in `ScreenBuffer::update`:
`(1..w).map(|i| idx + i).filter(|i| *i < buffer_size)`. -/
def nonesIdx (w idx bufferSize : Nat) : List Nat :=
  ((List.range' 1 (w - 1)).map fun i => idx + i).filter fun i => decide (i < bufferSize)

/-- Fold setting every listed index of the cache to empty (the
`for i in nones() { self.cells[i] = None; }` loop). -/
def setNones (cells : List (Option CellContent)) (ns : List Nat) : List (Option CellContent) :=
  ns.foldl (fun cs i => cs.set i none) cells

/-- `ScreenBuffer::update` parameterised by the glyph-width collaborator
`cw` (`unicode_width`, `None` meaning unmeasurable).  Returns `none` when the
row-major index is out of the vector's bounds (the Rust `self.cells[idx]`
panic), otherwise the changed flag and the new cache. -/
def ScreenBuffer.update (cw : Char → Option Nat) (b : ScreenBuffer) (pos : Cell)
    (character : Char) (fg bg : Color) : Option (Bool × ScreenBuffer) :=
  let cell : Option CellContent := some (character, fg, bg)
  let idx := pos.row * b.width + pos.col
  let bufferSize := b.cells.length
  if idx < bufferSize then
    let ns := nonesIdx ((cw character).getD 1) idx bufferSize
    let upd := decide (b.cells.getD idx none ≠ cell)
      || ns.any fun i => decide (b.cells.getD i none ≠ none)
    if upd then some (true, { b with cells := setNones (b.cells.set idx cell) ns })
    else some (false, b)
  else none

/-- The operations the `Terminal` emitter performs, one per method call. -/
inductive TermOp : Type
  | setFg (c : Color) | setBg (c : Color)
  | clear | enableAltscreen | disableAltscreen
  | hideCursor | showCursor
  | setCursorPosition (row col : Nat)
  | put (c : Char)
  | flush
deriving DecidableEq

/-- The raw escape sequence each emitter operation writes (from the
`write!` calls in `impl Terminal`); `none` for the color selections, which go
through the `term` crate's terminfo lookup. -/
def TermOp.bytes : TermOp → Option String
  | .clear => some "\x1B[2J"
  | .enableAltscreen => some "\x1B7\x1B[?47h"
  | .disableAltscreen => some "\x1B[?47l\x1B8"
  | .hideCursor => some "\x1B[?25l"
  | .showCursor => some "\x1B[?25h"
  | .setCursorPosition row col =>
    some ("\x1B[" ++ toString (row + 1) ++ ";" ++ toString (col + 1) ++ "H")
  | .put c => some (String.singleton c)
  | _ => none

/-- The output stream underneath the emitter: a schedule `ok` saying which
writes succeed, a count of writes attempted, and the operations emitted so
far.  Every emitter method `unwrap`s its write, so a failed write is a panic
(`none`). -/
structure Sink where
  ok : Nat → Bool
  count : Nat
  out : List TermOp

/-- One emitter write: panics (`none`) when the scheduled outcome fails. -/
def Sink.emit (s : Sink) (op : TermOp) : Option Sink :=
  if s.ok s.count then some { s with count := s.count + 1, out := s.out ++ [op] }
  else none

/-- `Terminal::clear`. -/
def Terminal.clear (s : Sink) : Option Sink := s.emit .clear

/-- `Terminal::show_cursor`. -/
def Terminal.show_cursor (s : Sink) : Option Sink := s.emit .showCursor

/-- `Terminal::disable_altscreen`. -/
def Terminal.disable_altscreen (s : Sink) : Option Sink := s.emit .disableAltscreen

/-- `impl Drop for Screen`: the teardown body, clearing the terminal,
showing the cursor and leaving the alternate screen, in that order.  Each
step `unwrap`s its write, so a failure aborts the rest. -/
def Screen.teardown (s : Sink) : Option Sink :=
  (Terminal.clear s).bind fun s1 =>
    (Terminal.show_cursor s1).bind fun s2 =>
      Terminal.disable_altscreen s2

/-- `struct Screen`: cached size plus the diff cache (the emitter handle is
passed separately where needed). -/
structure Screen where
  size : Size
  buffer : ScreenBuffer
deriving DecidableEq

/-- `Screen::update_size` with the result of the `term_size::size()` query
(the external Size Provider) passed in: `none` models a failed ioctl. -/
def Screen.update_size (queried : Option (Nat × Nat)) (s : Screen) : Bool × Screen :=
  match queried with
  | none => (false, s)
  | some (rows, cols) =>
    if (⟨rows, cols⟩ : Size) = s.size then (false, s)
    else (true, { s with size := ⟨rows, cols⟩, buffer := s.buffer.resize ⟨rows, cols⟩ })

/-- `Screen::put`: bounds-guarded delegation to the diff cache; on a reported
change, emit cursor move, fg select, bg select and the character, in order.
Returns the new screen and the emitted operations, `none` being a panic
inside `ScreenBuffer::update`. -/
def Screen.put (cw : Char → Option Nat) (s : Screen) (position : Cell)
    (character : Char) (fg bg : Color) : Option (Screen × List TermOp) :=
  match position.within s.size with
  | none => some (s, [])
  | some c =>
    match s.buffer.update cw position character fg bg with
    | none => none
    | some (changed, b) =>
      some ({ s with buffer := b },
        if changed then
          [TermOp.setCursorPosition c.row c.col, TermOp.setFg fg, TermOp.setBg bg,
           TermOp.put character]
        else [])

/-- The size invariant the facade maintains: the diff cache holds exactly
`rows * cols` entries and its stored width is `cols`. -/
def ScreenInv (s : Screen) : Prop :=
  s.buffer.cells.length = s.size.rows * s.size.cols ∧ s.buffer.width = s.size.cols

end Rim

namespace Rim

/-! ### Arithmetic helpers for the `i16`-cast subtraction -/

/-- For `u16` values below `2 ^ 15` the `i16`-cast subtraction floored at
zero agrees with truncated natural subtraction. -/
theorem u16subVia16_eq_sub (a b : Nat) (ha : a < 32768) (hb : b < 32768) :
    u16subVia16 a b = a - b := by
  unfold u16subVia16 wrapI16 toI16
  rw [if_pos ha, if_pos hb]
  omega

/-- `width - 1` as computed on `u16` values, for `1 ≤ width < 65536`. -/
theorem u16sub_one (w : Nat) (h1 : 1 ≤ w) (h2 : w < 65536) : u16sub w 1 = w - 1 := by
  unfold u16sub
  omega

end Rim

namespace Rim

/-! ### C3: saturating cell subtraction -/

/-- C3 counterexample: the claim asserts `a - b` equals the component-wise
difference floored at zero for all `u16` coordinates, but the `i16` casts in
`impl Sub for Cell` make `Cell(40000, 0) - Cell(0, 0)` evaluate to
`Cell(0, 0)` instead of `Cell(40000, 0)`. -/
theorem cell_sub_not_saturating_at_40000 :
    Cell.sub ⟨40000, 0⟩ ⟨0, 0⟩ = ⟨0, 0⟩ ∧
      (⟨0, 0⟩ : Cell) ≠ ⟨((40000 : Int) - 0).toNat, ((0 : Int) - 0).toNat⟩ := by
  constructor
  · decide
  · decide

/-- C3 (amended): for coordinates below `2 ^ 15` — where the `i16` casts are
value-preserving — `Cell::sub` is the component-wise difference floored at
zero, and in particular never wraps or goes negative; `(0,0) - (1,1) = (0,0)`
is an instance. -/
theorem cell_sub_saturating (a b : Cell)
    (ha : a.row < 32768 ∧ a.col < 32768) (hb : b.row < 32768 ∧ b.col < 32768) :
    Cell.sub a b = ⟨((a.row : Int) - b.row).toNat, ((a.col : Int) - b.col).toNat⟩ := by
  unfold Cell.sub
  rw [u16subVia16_eq_sub a.row b.row ha.1 hb.1, u16subVia16_eq_sub a.col b.col ha.2 hb.2]
  rw [Cell.mk.injEq]
  constructor <;> omega

/-- C3 witness: the amended theorem applied at `(0,0) - (1,1)`. -/
theorem cell_sub_saturating_witness :
    ((0 < 32768 ∧ 0 < 32768) ∧ (1 < 32768 ∧ 1 < 32768)) ∧
      Cell.sub ⟨0, 0⟩ ⟨1, 1⟩ = ⟨((0 : Int) - 1).toNat, ((0 : Int) - 1).toNat⟩ :=
  ⟨⟨⟨by decide, by decide⟩, ⟨by decide, by decide⟩⟩,
    cell_sub_saturating ⟨0, 0⟩ ⟨1, 1⟩ ⟨by decide, by decide⟩ ⟨by decide, by decide⟩⟩

end Rim

namespace Rim

/-! ### C5: diff-cache resize -/

/-- C5: `ScreenBuffer::resize` leaves exactly `rows * cols` entries and
stored width `cols`; every surviving entry keeps its value at its row-major
index, and every newly added entry (growing) is empty.  Shrinking discards
precisely the indices at or beyond `rows * cols` (forced by the length
equation together with index preservation). -/
theorem resize_spec (b : ScreenBuffer) (sz : Size) :
    (b.resize sz).cells.length = sz.rows * sz.cols ∧
    (b.resize sz).width = sz.cols ∧
    (∀ i, i < sz.rows * sz.cols → i < b.cells.length →
      (b.resize sz).cells.getD i none = b.cells.getD i none) ∧
    (∀ i, b.cells.length ≤ i → i < sz.rows * sz.cols →
      (b.resize sz).cells.getD i none = none) := by
  simp only [ScreenBuffer.resize]
  by_cases hgrow : b.cells.length < sz.rows * sz.cols
  · rw [if_pos hgrow]
    refine ⟨?_, trivial, ?_, ?_⟩
    · simp [List.length_append, List.length_replicate]
      omega
    · intro i _ hilen
      exact List.getD_append _ _ _ _ hilen
    · intro i hge hlt
      rw [List.getD_eq_getElem?_getD, List.getElem?_append_right hge,
        List.getElem?_replicate]
      by_cases hin : i - b.cells.length < sz.rows * sz.cols - b.cells.length
      · rw [if_pos hin]; rfl
      · rw [if_neg hin]; rfl
  · rw [if_neg hgrow]
    by_cases hshrink : sz.rows * sz.cols < b.cells.length
    · rw [if_pos hshrink]
      refine ⟨?_, trivial, ?_, ?_⟩
      · simp [List.length_take]
        omega
      · intro i hi _
        rw [List.getD_eq_getElem?_getD, List.getD_eq_getElem?_getD,
          List.getElem?_take, if_pos hi]
      · intro i hge hlt
        omega
    · rw [if_neg hshrink]
      have heq : b.cells.length = sz.rows * sz.cols := by omega
      exact ⟨heq, trivial, fun i _ _ => rfl, fun i hge hlt => by omega⟩

/-- C5 witness: the theorem applied to a concrete shrink, plus evaluations
showing surviving entries keep their index. -/
theorem resize_spec_witness :
    ((ScreenBuffer.mk [some ('a', .red, .black), some ('b', .red, .black),
        some ('c', .red, .black), some ('d', .red, .black)] 2).resize ⟨1, 3⟩).cells.length
        = 1 * 3 ∧
      (1 < 1 * 3 → 1 < 4 →
        ((ScreenBuffer.mk [some ('a', .red, .black), some ('b', .red, .black),
          some ('c', .red, .black), some ('d', .red, .black)] 2).resize ⟨1, 3⟩).cells.getD 1 none
          = [some ('a', .red, .black), some ('b', .red, .black),
             some ('c', .red, .black), some ('d', .red, .black)].getD 1 none) := by
  refine ⟨(resize_spec _ _).1, ?_⟩
  intro h1 h2
  exact (resize_spec (ScreenBuffer.mk [some ('a', .red, .black), some ('b', .red, .black),
    some ('c', .red, .black), some ('d', .red, .black)] 2) ⟨1, 3⟩).2.2.1 1 h1 h2

end Rim

namespace Rim

/-! ### C6: update_size -/

/-- C6: `Screen::update_size` reports "unchanged" and leaves the cached
dimensions and the diff cache untouched when the size query fails or returns
the cached size; on a genuinely new size it resizes the diff cache, stores
the new size, and reports "changed". -/
theorem update_size_spec (s : Screen) (q : Option (Nat × Nat)) :
    (q = none → Screen.update_size q s = (false, s)) ∧
    (∀ rows cols, q = some (rows, cols) → (⟨rows, cols⟩ : Size) = s.size →
      Screen.update_size q s = (false, s)) ∧
    (∀ rows cols, q = some (rows, cols) → (⟨rows, cols⟩ : Size) ≠ s.size →
      Screen.update_size q s =
        (true, { size := ⟨rows, cols⟩, buffer := s.buffer.resize ⟨rows, cols⟩ })) := by
  refine ⟨fun hq => ?_, fun rows cols hq heq => ?_, fun rows cols hq hne => ?_⟩
  · rw [hq]; rfl
  · rw [hq]; simp [Screen.update_size, heq]
  · rw [hq]; simp [Screen.update_size, hne]

/-- C6 witness: the theorem applied to a screen of size `(1, 1)` receiving a
query result `(2, 3)`. -/
theorem update_size_spec_witness :
    (some ((2 : Nat), (3 : Nat)) = some (2, 3) ∧
        (⟨2, 3⟩ : Size) ≠ (Screen.mk ⟨1, 1⟩ ⟨[none], 1⟩).size) ∧
      Screen.update_size (some (2, 3)) (Screen.mk ⟨1, 1⟩ ⟨[none], 1⟩) =
        (true, { size := ⟨2, 3⟩, buffer := (ScreenBuffer.mk [none] 1).resize ⟨2, 3⟩ }) :=
  ⟨⟨rfl, by decide⟩,
    (update_size_spec (Screen.mk ⟨1, 1⟩ ⟨[none], 1⟩) (some (2, 3))).2.2 2 3 rfl (by decide)⟩

/-! ### C10: degenerate regions -/

/-- C10: a region with zero rows or zero columns yields no cells: the
`within` test in `CellIterator::new` already fails, so the first `next`
returns `none` and the iterator never produces a cell (in particular the
column-width subtraction in the advance step is never reached, as advancing
requires a stored cell). -/
theorem cellIterator_degenerate (r : Rect) (h : r.size.rows = 0 ∨ r.size.cols = 0) :
    (CellIterator.new r).next_cell = none ∧
    ((CellIterator.new r).next).1 = none ∧
    (∀ fuel, (CellIterator.new r).toList fuel = []) := by
  have hnone : (CellIterator.new r).next_cell = none := by
    simp only [CellIterator.new, Cell.add, Cell.within, u16wrap]
    rw [if_neg]
    rintro ⟨h1, h2⟩
    rcases h with h | h
    · rw [h] at h1; omega
    · rw [h] at h2; omega
  refine ⟨hnone, hnone, ?_⟩
  intro fuel
  cases fuel with
  | zero => rfl
  | succ f => simp [CellIterator.toList, hnone]

/-- C10 witness: the theorem applied to the region with origin `(3, 7)` and
zero rows. -/
theorem cellIterator_degenerate_witness :
    ((0 : Nat) = 0 ∨ (5 : Nat) = 0) ∧
      ((CellIterator.new ⟨⟨3, 7⟩, ⟨0, 5⟩⟩).next_cell = none ∧
        ((CellIterator.new ⟨⟨3, 7⟩, ⟨0, 5⟩⟩).next).1 = none ∧
        (∀ fuel, (CellIterator.new ⟨⟨3, 7⟩, ⟨0, 5⟩⟩).toList fuel = [])) :=
  ⟨Or.inl rfl, cellIterator_degenerate ⟨⟨3, 7⟩, ⟨0, 5⟩⟩ (Or.inl rfl)⟩

end Rim

namespace Rim

/-! ### C7 and C8: teardown -/

/-- C8: whatever happened before (any write count and any previously emitted
output), as long as teardown's own three writes succeed, `Drop for Screen`
emits exactly the clear-screen, show-cursor and leave-alternate-screen
operations, in that order — and those operations write the escape sequences
`ESC [ 2 J`, `ESC [ ? 2 5 h`, and `ESC [ ? 4 7 l` `ESC 8`. -/
theorem teardown_emits (s : Sink) (h0 : s.ok s.count = true)
    (h1 : s.ok (s.count + 1) = true) (h2 : s.ok (s.count + 2) = true) :
    Screen.teardown s =
      some { ok := s.ok, count := s.count + 3,
             out := s.out ++ [TermOp.clear, TermOp.showCursor, TermOp.disableAltscreen] } ∧
      [TermOp.clear, TermOp.showCursor, TermOp.disableAltscreen].map TermOp.bytes =
        [some "\x1B[2J", some "\x1B[?25h", some "\x1B[?47l\x1B8"] := by
  constructor
  · simp [Screen.teardown, Terminal.clear, Terminal.show_cursor, Terminal.disable_altscreen,
      Sink.emit, h0, h1, h2]
  · rfl

/-- C8 witness: the theorem applied to a fresh sink whose writes all succeed. -/
theorem teardown_emits_witness :
    ((Sink.mk (fun _ => true) 0 []).ok 0 = true ∧
        (Sink.mk (fun _ => true) 0 []).ok 1 = true ∧
        (Sink.mk (fun _ => true) 0 []).ok 2 = true) ∧
      Screen.teardown (Sink.mk (fun _ => true) 0 []) =
        some { ok := fun _ => true, count := 3,
               out := [TermOp.clear, TermOp.showCursor, TermOp.disableAltscreen] } ∧
      [TermOp.clear, TermOp.showCursor, TermOp.disableAltscreen].map TermOp.bytes =
        [some "\x1B[2J", some "\x1B[?25h", some "\x1B[?47l\x1B8"] :=
  ⟨⟨rfl, rfl, rfl⟩, teardown_emits (Sink.mk (fun _ => true) 0 []) rfl rfl rfl⟩

/-- C7 counterexample: the claim says teardown tolerates write failures
without panicking, but every emitter method `unwrap`s its write, so a
teardown whose first write fails (e.g. a broken pipe) panics: the teardown
routine aborts (`none`) instead of running to completion. -/
theorem teardown_panics_on_write_failure :
    Screen.teardown (Sink.mk (fun _ => false) 0 []) = none := rfl

/-- C7 (amended): teardown completes without panicking exactly when all
three of its terminal writes succeed; any failing write makes the `unwrap`
panic and abort the remaining restoration steps. -/
theorem teardown_completes_iff (s : Sink) :
    (Screen.teardown s).isSome ↔
      (s.ok s.count = true ∧ s.ok (s.count + 1) = true ∧ s.ok (s.count + 2) = true) := by
  unfold Screen.teardown Terminal.clear Terminal.show_cursor Terminal.disable_altscreen Sink.emit
  by_cases h0 : s.ok s.count = true <;>
    by_cases h1 : s.ok (s.count + 1) = true <;>
      by_cases h2 : s.ok (s.count + 2) = true <;>
        simp [h0, h1, h2]

end Rim

namespace Rim

/-! ### C1: diff-cache update -/

/-- Membership in the clipped footprint index list: the indices strictly
between `idx` and `idx + w` that are inside the cache. -/
theorem mem_nonesIdx (w idx len i : Nat) :
    i ∈ nonesIdx w idx len ↔ idx < i ∧ i < idx + w ∧ i < len := by
  simp only [nonesIdx, List.mem_filter, List.mem_map, List.mem_range'_1, decide_eq_true_eq]
  constructor
  · rintro ⟨⟨a, ⟨ha1, ha2⟩, rfl⟩, hlen⟩
    omega
  · rintro ⟨hgt, hlt, hlen⟩
    exact ⟨⟨i - idx, ⟨by omega, by omega⟩, by omega⟩, hlen⟩

/-- Setting a batch of indices to `none` keeps the cache length. -/
theorem setNones_length (ns : List Nat) (cs : List (Option CellContent)) :
    (setNones cs ns).length = cs.length := by
  induction ns generalizing cs with
  | nil => rfl
  | cons i ns ih =>
    show (setNones (cs.set i none) ns).length = cs.length
    rw [ih, List.length_set]

/-- Entries outside the batch are untouched. -/
theorem setNones_getD_not_mem (ns : List Nat) (cs : List (Option CellContent)) (j : Nat)
    (hj : j ∉ ns) : (setNones cs ns).getD j none = cs.getD j none := by
  induction ns generalizing cs with
  | nil => rfl
  | cons i ns ih =>
    have hji : j ≠ i := fun h => hj (h ▸ List.mem_cons_self i ns)
    have hjns : j ∉ ns := fun h => hj (List.mem_cons_of_mem i h)
    show (setNones (cs.set i none) ns).getD j none = cs.getD j none
    rw [ih _ hjns, List.getD_eq_getElem?_getD, List.getElem?_set_ne (fun h => hji h.symm),
      List.getD_eq_getElem?_getD]

/-- Entries in the batch end up empty. -/
theorem setNones_getD_mem (ns : List Nat) (cs : List (Option CellContent)) (j : Nat)
    (hj : j ∈ ns) : (setNones cs ns).getD j none = none := by
  induction ns generalizing cs with
  | nil => cases hj
  | cons i ns ih =>
    show (setNones (cs.set i none) ns).getD j none = none
    by_cases hmem : j ∈ ns
    · exact ih _ hmem
    · have hji : j = i := by
        rcases List.mem_cons.mp hj with h | h
        · exact h
        · exact absurd h hmem
      rw [setNones_getD_not_mem ns _ j hmem, hji, List.getD_eq_getElem?_getD,
        List.getElem?_set]
      by_cases hlt : i < cs.length
      · rw [if_pos rfl, if_pos hlt]; rfl
      · rw [if_pos rfl, if_neg hlt]; rfl

end Rim

namespace Rim

/-- The row-major linear index computed inside `ScreenBuffer::update`:
`(row as usize * width as usize) + col as usize`. -/
def rmIdx (b : ScreenBuffer) (pos : Cell) : Nat := pos.row * b.width + pos.col

/-- Full characterisation of `ScreenBuffer::update` at an in-bounds index:
the changed flag, the mutation on a change, and the absence of mutation
otherwise. -/
theorem update_chars (cw : Char → Option Nat) (b : ScreenBuffer) (pos : Cell)
    (character : Char) (fg bg : Color) (h : rmIdx b pos < b.cells.length) :
    ∃ changed b2,
      b.update cw pos character fg bg = some (changed, b2) ∧
      ((changed = true) ↔
        (b.cells.getD (rmIdx b pos) none ≠ some (character, fg, bg) ∨
          ∃ i, rmIdx b pos < i ∧ i < rmIdx b pos + (cw character).getD 1 ∧
            i < b.cells.length ∧ b.cells.getD i none ≠ none)) ∧
      (changed = true →
        b2.width = b.width ∧
        b2.cells.length = b.cells.length ∧
        b2.cells.getD (rmIdx b pos) none = some (character, fg, bg) ∧
        (∀ i, rmIdx b pos < i → i < rmIdx b pos + (cw character).getD 1 →
          i < b.cells.length → b2.cells.getD i none = none) ∧
        (∀ j, j ≠ rmIdx b pos →
          ¬(rmIdx b pos < j ∧ j < rmIdx b pos + (cw character).getD 1 ∧ j < b.cells.length) →
          b2.cells.getD j none = b.cells.getD j none)) ∧
      (changed = false → b2 = b) := by
  simp only [rmIdx] at h ⊢
  simp only [ScreenBuffer.update]
  rw [if_pos h]
  rcases hu : (decide (b.cells.getD (pos.row * b.width + pos.col) none ≠ some (character, fg, bg))
      || (nonesIdx ((cw character).getD 1) (pos.row * b.width + pos.col) b.cells.length).any
        fun i => decide (b.cells.getD i none ≠ none)) with _ | _
  · refine ⟨false, b, rfl, ?_, fun hh => absurd hh (by decide), fun _ => rfl⟩
    constructor
    · intro hh; exact absurd hh (by decide)
    · intro hr
      exfalso
      rw [Bool.or_eq_false_iff] at hu
      obtain ⟨hu1, hu2⟩ := hu
      rw [decide_eq_false_iff_not] at hu1
      rcases hr with hr | ⟨i, hi1, hi2, hi3, hi4⟩
      · exact hu1 hr
      · have hfalse := List.any_eq_false.mp hu2 i
          ((mem_nonesIdx _ _ _ i).mpr ⟨hi1, hi2, hi3⟩)
        rw [decide_eq_true_eq] at hfalse
        exact hfalse hi4
  · refine ⟨true, _, rfl, ?_, ?_, fun hh => absurd hh (by decide)⟩
    · constructor
      · intro _
        rcases (Bool.or_eq_true _ _).mp hu with h1 | h2
        · exact Or.inl (of_decide_eq_true h1)
        · obtain ⟨i, hmem, hdec⟩ := List.any_eq_true.mp h2
          obtain ⟨a1, a2, a3⟩ := (mem_nonesIdx _ _ _ i).mp hmem
          exact Or.inr ⟨i, a1, a2, a3, of_decide_eq_true hdec⟩
      · intro _; rfl
    · intro _
      have hnotmem : pos.row * b.width + pos.col ∉
          nonesIdx ((cw character).getD 1) (pos.row * b.width + pos.col) b.cells.length := by
        intro hc
        rw [mem_nonesIdx] at hc
        omega
      refine ⟨rfl, ?_, ?_, ?_, ?_⟩
      · rw [setNones_length, List.length_set]
      · rw [setNones_getD_not_mem _ _ _ hnotmem, List.getD_eq_getElem?_getD,
          List.getElem?_set_self h]
        rfl
      · intro i hi1 hi2 hi3
        exact setNones_getD_mem _ _ _ ((mem_nonesIdx _ _ _ i).mpr ⟨hi1, hi2, hi3⟩)
      · intro j hj1 hj2
        have hjns : j ∉
            nonesIdx ((cw character).getD 1) (pos.row * b.width + pos.col) b.cells.length := by
          intro hc
          exact hj2 ((mem_nonesIdx _ _ _ j).mp hc)
        rw [setNones_getD_not_mem _ _ _ hjns, List.getD_eq_getElem?_getD,
          List.getElem?_set_ne (Ne.symm hj1), ← List.getD_eq_getElem?_getD]

/-- C1: for a position whose row-major index is inside the cache,
`ScreenBuffer::update` returns the changed flag that is true exactly when the
entry at the index differs from `(character, fg, bg)` or some entry in the
clipped footprint (the next `w - 1` indices that are inside the cache, `w`
the glyph's display width defaulting to 1) is non-empty; on a change it
stores the new triple at the index, empties exactly the clipped footprint and
touches nothing else; on no change the cache is left unmodified. -/
theorem update_spec (cw : Char → Option Nat) (b : ScreenBuffer) (pos : Cell)
    (character : Char) (fg bg : Color) (h : rmIdx b pos < b.cells.length) :
    ∃ changed b2,
      b.update cw pos character fg bg = some (changed, b2) ∧
      ((changed = true) ↔
        (b.cells.getD (rmIdx b pos) none ≠ some (character, fg, bg) ∨
          ∃ i, rmIdx b pos < i ∧ i < rmIdx b pos + (cw character).getD 1 ∧
            i < b.cells.length ∧ b.cells.getD i none ≠ none)) ∧
      (changed = true →
        b2.width = b.width ∧
        b2.cells.length = b.cells.length ∧
        b2.cells.getD (rmIdx b pos) none = some (character, fg, bg) ∧
        (∀ i, rmIdx b pos < i → i < rmIdx b pos + (cw character).getD 1 →
          i < b.cells.length → b2.cells.getD i none = none) ∧
        (∀ j, j ≠ rmIdx b pos →
          ¬(rmIdx b pos < j ∧ j < rmIdx b pos + (cw character).getD 1 ∧ j < b.cells.length) →
          b2.cells.getD j none = b.cells.getD j none)) ∧
      (changed = false → b2 = b) :=
  update_chars cw b pos character fg bg h

end Rim

namespace Rim

/-- C1 witness: the theorem applied to a two-cell cache receiving a width-2
glyph at index 0. -/
theorem update_spec_witness :
    rmIdx (ScreenBuffer.mk [none, none] 2) ⟨0, 0⟩ <
        (ScreenBuffer.mk [none, none] 2).cells.length ∧
      ∃ changed b2,
        (ScreenBuffer.mk [none, none] 2).update (fun _ => some 2) ⟨0, 0⟩ 'a' .red .black =
          some (changed, b2) ∧
        ((changed = true) ↔
          ((ScreenBuffer.mk [none, none] 2).cells.getD
              (rmIdx (ScreenBuffer.mk [none, none] 2) ⟨0, 0⟩) none ≠ some ('a', .red, .black) ∨
            ∃ i, rmIdx (ScreenBuffer.mk [none, none] 2) ⟨0, 0⟩ < i ∧
              i < rmIdx (ScreenBuffer.mk [none, none] 2) ⟨0, 0⟩ +
                ((fun (_ : Char) => some 2) 'a').getD 1 ∧
              i < (ScreenBuffer.mk [none, none] 2).cells.length ∧
              (ScreenBuffer.mk [none, none] 2).cells.getD i none ≠ none)) ∧
        (changed = true →
          b2.width = (ScreenBuffer.mk [none, none] 2).width ∧
          b2.cells.length = (ScreenBuffer.mk [none, none] 2).cells.length ∧
          b2.cells.getD (rmIdx (ScreenBuffer.mk [none, none] 2) ⟨0, 0⟩) none =
            some ('a', .red, .black) ∧
          (∀ i, rmIdx (ScreenBuffer.mk [none, none] 2) ⟨0, 0⟩ < i →
            i < rmIdx (ScreenBuffer.mk [none, none] 2) ⟨0, 0⟩ +
              ((fun (_ : Char) => some 2) 'a').getD 1 →
            i < (ScreenBuffer.mk [none, none] 2).cells.length → b2.cells.getD i none = none) ∧
          (∀ j, j ≠ rmIdx (ScreenBuffer.mk [none, none] 2) ⟨0, 0⟩ →
            ¬(rmIdx (ScreenBuffer.mk [none, none] 2) ⟨0, 0⟩ < j ∧
              j < rmIdx (ScreenBuffer.mk [none, none] 2) ⟨0, 0⟩ +
                ((fun (_ : Char) => some 2) 'a').getD 1 ∧
              j < (ScreenBuffer.mk [none, none] 2).cells.length) →
            b2.cells.getD j none = (ScreenBuffer.mk [none, none] 2).cells.getD j none)) ∧
        (changed = false → b2 = ScreenBuffer.mk [none, none] 2) :=
  ⟨by decide,
    update_spec (fun _ => some 2) (ScreenBuffer.mk [none, none] 2) ⟨0, 0⟩ 'a' .red .black
      (by decide)⟩

end Rim

namespace Rim

/-! ### C4 and C9: the put facade -/

/-- The `within(size)` guard together with the size invariant puts the
row-major index inside the cache. -/
theorem rmIdx_lt_of_within (s : Screen) (position : Cell) (hinv : ScreenInv s)
    (hin : position.row < s.size.rows ∧ position.col < s.size.cols) :
    rmIdx s.buffer position < s.buffer.cells.length := by
  obtain ⟨hlen, hw⟩ := hinv
  rw [rmIdx, hw, hlen]
  have h1 : (position.row + 1) * s.size.cols = position.row * s.size.cols + s.size.cols := by
    ring
  have h2 : (position.row + 1) * s.size.cols ≤ s.size.rows * s.size.cols :=
    Nat.mul_le_mul_right _ (by omega)
  omega

/-- Repeating an identical update reports no change and leaves the cache as
is. -/
theorem update_update (cw : Char → Option Nat) (b : ScreenBuffer) (pos : Cell)
    (character : Char) (fg bg : Color) (changed : Bool) (b2 : ScreenBuffer)
    (h : b.update cw pos character fg bg = some (changed, b2)) :
    b2.update cw pos character fg bg = some (false, b2) := by
  by_cases hlen : rmIdx b pos < b.cells.length
  case neg =>
    exfalso
    simp only [ScreenBuffer.update] at h
    rw [rmIdx] at hlen
    rw [if_neg hlen] at h
    cases h
  obtain ⟨c2, b3, heq, hiff, hmut, hunch⟩ := update_chars cw b pos character fg bg hlen
  rw [h] at heq
  have hinj := Option.some.inj heq
  have hc : changed = c2 := congrArg Prod.fst hinj
  have hb : b2 = b3 := congrArg Prod.snd hinj
  subst hc
  subst hb
  cases changed with
  | false =>
    have hb2 : b2 = b := hunch rfl
    rw [hb2] at h ⊢
    exact h
  | true =>
    obtain ⟨hw, hl, hidx, hfoot, hrest⟩ := hmut rfl
    simp only [rmIdx] at hidx hfoot hlen
    simp only [ScreenBuffer.update]
    rw [hw, hl]
    rw [if_pos hlen]
    have hcond : (decide (b2.cells.getD (pos.row * b.width + pos.col) none ≠
          some (character, fg, bg))
        || (nonesIdx ((cw character).getD 1) (pos.row * b.width + pos.col) b.cells.length).any
          fun i => decide (b2.cells.getD i none ≠ none)) = false := by
      rw [Bool.or_eq_false_iff]
      refine ⟨?_, ?_⟩
      · rw [decide_eq_false_iff_not]
        intro hne
        exact hne hidx
      · rw [List.any_eq_false]
        intro i hi
        rw [mem_nonesIdx] at hi
        intro hdec
        exact (of_decide_eq_true hdec) (hfoot i hi.1 hi.2.1 hi.2.2)
    rw [hcond]
    rfl

/-- C4: `Screen::put` at a position outside the cached dimensions is a
silent no-op (unchanged screen, no emitted operation); inside them it
delegates to the diff cache's update and emits exactly one cursor move, one
foreground select, one background select and one character write when the
cache reports a change, and nothing otherwise — so an immediately repeated
identical put emits nothing. -/
theorem put_spec (cw : Char → Option Nat) (s : Screen) (position : Cell)
    (character : Char) (fg bg : Color) :
    (¬(position.row < s.size.rows ∧ position.col < s.size.cols) →
      Screen.put cw s position character fg bg = some (s, [])) ∧
    ((position.row < s.size.rows ∧ position.col < s.size.cols) → ScreenInv s →
      ∃ changed b2,
        s.buffer.update cw position character fg bg = some (changed, b2) ∧
        Screen.put cw s position character fg bg =
          some ({ s with buffer := b2 },
            if changed then
              [TermOp.setCursorPosition position.row position.col, TermOp.setFg fg,
               TermOp.setBg bg, TermOp.put character]
            else []) ∧
        (changed = false → b2 = s.buffer) ∧
        Screen.put cw { s with buffer := b2 } position character fg bg =
          some ({ s with buffer := b2 }, [])) := by
  constructor
  · intro hout
    simp only [Screen.put, Cell.within]
    rw [if_neg hout]
  · intro hin hinv
    have hlen := rmIdx_lt_of_within s position hinv hin
    obtain ⟨changed, b2, heq, hiff, hmut, hunch⟩ :=
      update_chars cw s.buffer position character fg bg hlen
    refine ⟨changed, b2, heq, ?_, hunch, ?_⟩
    · simp only [Screen.put, Cell.within]
      rw [if_pos hin, heq]
    · have hsecond := update_update cw s.buffer position character fg bg changed b2 heq
      simp only [Screen.put, Cell.within]
      rw [if_pos hin, hsecond]
      rfl

/-- C9: under the size invariant (cache length `rows * cols`, stored width
`cols`), the `within` guard of `Screen::put` keeps the row-major index of
`ScreenBuffer::update` inside the cache's bounds, and `put` never panics on
out-of-range indexing. -/
theorem put_no_panic (cw : Char → Option Nat) (s : Screen) (position : Cell)
    (character : Char) (fg bg : Color) (hinv : ScreenInv s) :
    ((position.row < s.size.rows ∧ position.col < s.size.cols) →
      rmIdx s.buffer position < s.buffer.cells.length) ∧
    (Screen.put cw s position character fg bg).isSome = true := by
  refine ⟨fun hin => rmIdx_lt_of_within s position hinv hin, ?_⟩
  by_cases hin : position.row < s.size.rows ∧ position.col < s.size.cols
  · obtain ⟨changed, b2, heq, hiff, hmut, hunch⟩ :=
      update_chars cw s.buffer position character fg bg (rmIdx_lt_of_within s position hinv hin)
    simp only [Screen.put, Cell.within]
    rw [if_pos hin, heq]
    rfl
  · simp only [Screen.put, Cell.within]
    rw [if_neg hin]
    rfl

end Rim

namespace Rim

/-- C4 witness: the theorem's in-bounds branch applied to a 1x2 screen
putting 'a' at the origin. -/
theorem put_spec_witness :
    (((0 : Nat) < 1 ∧ (0 : Nat) < 2) ∧
        ScreenInv (Screen.mk ⟨1, 2⟩ (ScreenBuffer.mk [none, none] 2))) ∧
      ∃ changed b2,
        (ScreenBuffer.mk [none, none] 2).update (fun _ => some 1) ⟨0, 0⟩ 'a' .red .black =
          some (changed, b2) ∧
        Screen.put (fun _ => some 1) (Screen.mk ⟨1, 2⟩ (ScreenBuffer.mk [none, none] 2)) ⟨0, 0⟩
            'a' .red .black =
          some (Screen.mk ⟨1, 2⟩ b2,
            if changed then
              [TermOp.setCursorPosition 0 0, TermOp.setFg .red, TermOp.setBg .black,
               TermOp.put 'a']
            else []) ∧
        (changed = false → b2 = ScreenBuffer.mk [none, none] 2) ∧
        Screen.put (fun _ => some 1) (Screen.mk ⟨1, 2⟩ b2) ⟨0, 0⟩ 'a' .red .black =
          some (Screen.mk ⟨1, 2⟩ b2, []) :=
  ⟨⟨⟨by decide, by decide⟩, ⟨rfl, rfl⟩⟩,
    (put_spec (fun _ => some 1) (Screen.mk ⟨1, 2⟩ (ScreenBuffer.mk [none, none] 2)) ⟨0, 0⟩
      'a' .red .black).2 ⟨by decide, by decide⟩ ⟨rfl, rfl⟩⟩

/-- C9 witness: the theorem applied to a 1x2 screen satisfying the size
invariant. -/
theorem put_no_panic_witness :
    ScreenInv (Screen.mk ⟨1, 2⟩ (ScreenBuffer.mk [none, none] 2)) ∧
      ((((0 : Nat) < 1 ∧ (0 : Nat) < 2) →
        rmIdx (ScreenBuffer.mk [none, none] 2) ⟨0, 0⟩ <
          (ScreenBuffer.mk [none, none] 2).cells.length) ∧
      (Screen.put (fun _ => some 2) (Screen.mk ⟨1, 2⟩ (ScreenBuffer.mk [none, none] 2)) ⟨0, 0⟩
          'b' .green .blue).isSome = true) :=
  ⟨⟨rfl, rfl⟩,
    put_no_panic (fun _ => some 2) (Screen.mk ⟨1, 2⟩ (ScreenBuffer.mk [none, none] 2)) ⟨0, 0⟩
      'b' .green .blue ⟨rfl, rfl⟩⟩

end Rim

namespace Rim

/-! ### C2: the region cell iterator -/

/-- C2 counterexample: for the region with origin `(0, 40000)` and size
`(2, 2)` the iterator does not enumerate the region's cells in row-major
order: the `i16`-cast subtraction used to return to the start column wraps
for columns at or above `2 ^ 15`, so after `(0, 40001)` the iterator
produces `(1, 0)` instead of `(1, 40000)` and then walks the whole second
row from column 0. -/
theorem cellIterator_not_rowMajor_at_40000 :
    (CellIterator.new ⟨⟨0, 40000⟩, ⟨2, 2⟩⟩).toList (2 * 2 + 1) ≠
        rowMajorCells ⟨⟨0, 40000⟩, ⟨2, 2⟩⟩ ∧
      ((CellIterator.new ⟨⟨0, 40000⟩, ⟨2, 2⟩⟩).toList (2 * 2 + 1)).getD 2 ⟨0, 0⟩ =
        ⟨1, 0⟩ := by
  constructor
  · decide
  · decide

/-- One advance step of the iterator, phrased on the row/column offsets
inside the region; all coordinates stay below `2 ^ 15`, where the wrapping
arithmetic is exact. -/
theorem ci_advance_qr (sr sc rows cols q r : Nat)
    (h1 : sr + rows ≤ 32768) (h2 : sc + cols ≤ 32768) (hq : q < rows) (hr : r < cols) :
    CellIterator.advance
        { next_cell := some ⟨sr + q, sc + r⟩, size := ⟨sr + rows, sc + cols⟩, width := cols }
        ⟨sr + q, sc + r⟩ =
      (if r + 1 < cols then some (⟨sr + q, sc + (r + 1)⟩ : Cell)
       else if q + 1 < rows then some (⟨sr + (q + 1), sc⟩ : Cell) else none) := by
  have hadd1 : Cell.add ⟨sr + q, sc + r⟩ ⟨0, 1⟩ = (⟨sr + q, sc + r + 1⟩ : Cell) := by
    simp only [Cell.add, u16wrap]
    rw [Cell.mk.injEq]
    constructor <;> omega
  by_cases hcase : r + 1 < cols
  · rw [if_pos hcase]
    simp only [CellIterator.advance]
    rw [hadd1]
    simp only [Cell.within]
    rw [if_pos (by omega : sr + q < sr + rows ∧ sc + r + 1 < sc + cols)]
    show some (⟨sr + q, sc + r + 1⟩ : Cell) = some (⟨sr + q, sc + (r + 1)⟩ : Cell)
    rw [Option.some.injEq, Cell.mk.injEq]
    constructor <;> omega
  · rw [if_neg hcase]
    simp only [CellIterator.advance]
    rw [hadd1]
    simp only [Cell.within]
    rw [if_neg (by omega : ¬(sr + q < sr + rows ∧ sc + r + 1 < sc + cols))]
    have hsub : Cell.sub ⟨sr + q, sc + r⟩ ⟨0, u16sub cols 1⟩ = (⟨sr + q, sc⟩ : Cell) := by
      rw [u16sub_one cols (by omega) (by omega)]
      simp only [Cell.sub]
      rw [u16subVia16_eq_sub (sr + q) 0 (by omega) (by omega),
        u16subVia16_eq_sub (sc + r) (cols - 1) (by omega) (by omega)]
      rw [Cell.mk.injEq]
      constructor <;> omega
    show ((Cell.sub ⟨sr + q, sc + r⟩ ⟨0, u16sub cols 1⟩).add ⟨1, 0⟩).within
        ⟨sr + rows, sc + cols⟩ =
      (if q + 1 < rows then some (⟨sr + (q + 1), sc⟩ : Cell) else none)
    rw [hsub]
    have hadd2 : Cell.add ⟨sr + q, sc⟩ ⟨1, 0⟩ = (⟨sr + q + 1, sc⟩ : Cell) := by
      simp only [Cell.add, u16wrap]
      rw [Cell.mk.injEq]
      constructor <;> omega
    rw [hadd2]
    simp only [Cell.within]
    by_cases hq1 : q + 1 < rows
    · rw [if_pos (by omega : sr + q + 1 < sr + rows ∧ sc < sc + cols), if_pos hq1]
      rw [Option.some.injEq, Cell.mk.injEq]
      constructor <;> omega
    · rw [if_neg (by omega : ¬(sr + q + 1 < sr + rows ∧ sc < sc + cols)), if_neg hq1]

/-- Reformulate the advance result on row/column offsets as the successor of
the row-major index. -/
theorem step_succ_form (rows cols k sr sc : Nat) (hk : k < rows * cols) :
    (if k % cols + 1 < cols then some (⟨sr + k / cols, sc + (k % cols + 1)⟩ : Cell)
     else if k / cols + 1 < rows then some (⟨sr + (k / cols + 1), sc⟩ : Cell) else none) =
      (if k + 1 < rows * cols then some (cellOfIdx ⟨⟨sr, sc⟩, ⟨rows, cols⟩⟩ (k + 1))
       else none) := by
  have hcols : 0 < cols := by
    rcases Nat.eq_zero_or_pos cols with h | h
    · rw [h, Nat.mul_zero] at hk; omega
    · exact h
  have hdm := Nat.div_add_mod k cols
  have hr : k % cols < cols := Nat.mod_lt _ hcols
  have hqlt : k / cols < rows := (Nat.div_lt_iff_lt_mul hcols).mpr hk
  simp only [cellOfIdx]
  by_cases hA : k % cols + 1 < cols
  · have hk1 : k + 1 = cols * (k / cols) + (k % cols + 1) := by omega
    have hdiv : (k + 1) / cols = k / cols := by
      rw [hk1, Nat.mul_add_div hcols, Nat.div_eq_of_lt hA, Nat.add_zero]
    have hmod : (k + 1) % cols = k % cols + 1 := by
      rw [hk1, Nat.mul_add_mod, Nat.mod_eq_of_lt hA]
    have hlt : k + 1 < rows * cols := by
      have e1 : cols * (k / cols + 1) = cols * (k / cols) + cols := by ring
      have e2 : cols * (k / cols + 1) ≤ cols * rows := Nat.mul_le_mul_left _ (by omega)
      have e3 : cols * rows = rows * cols := Nat.mul_comm _ _
      omega
    rw [if_pos hA, if_pos hlt, hdiv, hmod]
  · have hk1 : k + 1 = cols * (k / cols + 1) := by
      have e1 : cols * (k / cols + 1) = cols * (k / cols) + cols := by ring
      omega
    have hdiv : (k + 1) / cols = k / cols + 1 := by
      rw [hk1, Nat.mul_div_cancel_left _ hcols]
    have hmod : (k + 1) % cols = 0 := by
      rw [hk1, Nat.mul_mod_right]
    have hiff : (k + 1 < rows * cols) ↔ (k / cols + 1 < rows) := by
      rw [hk1, Nat.mul_comm rows cols]
      exact Nat.mul_lt_mul_left hcols
    rw [if_neg hA]
    by_cases hB : k / cols + 1 < rows
    · rw [if_pos hB, if_pos (hiff.mpr hB), hdiv, hmod]
      rw [Option.some.injEq, Cell.mk.injEq]
      constructor <;> omega
    · rw [if_neg hB, if_neg (fun hc => hB (hiff.mp hc))]

/-- Running the iterator from row-major index `k` with `n` cells left
produces exactly the remaining row-major enumeration. -/
theorem ci_run (sr sc rows cols : Nat) (h1 : sr + rows ≤ 32768) (h2 : sc + cols ≤ 32768) :
    ∀ n k fuel, k + n = rows * cols → n < fuel →
      CellIterator.toList
        { next_cell :=
            if k < rows * cols then some (cellOfIdx ⟨⟨sr, sc⟩, ⟨rows, cols⟩⟩ k) else none,
          size := ⟨sr + rows, sc + cols⟩, width := cols } fuel =
      (List.range' k n).map (cellOfIdx ⟨⟨sr, sc⟩, ⟨rows, cols⟩⟩) := by
  intro n
  induction n with
  | zero =>
    intro k fuel hk hf
    rw [if_neg (by omega)]
    cases fuel with
    | zero => omega
    | succ f => rfl
  | succ n ih =>
    intro k fuel hk hf
    have hklt : k < rows * cols := by omega
    have hcols : 0 < cols := by
      rcases Nat.eq_zero_or_pos cols with h | h
      · rw [h, Nat.mul_zero] at hklt; omega
      · exact h
    rw [if_pos hklt]
    cases fuel with
    | zero => omega
    | succ f =>
      have hadv : CellIterator.advance
          { next_cell := some (cellOfIdx ⟨⟨sr, sc⟩, ⟨rows, cols⟩⟩ k),
            size := ⟨sr + rows, sc + cols⟩, width := cols }
          (cellOfIdx ⟨⟨sr, sc⟩, ⟨rows, cols⟩⟩ k) =
          (if k + 1 < rows * cols then some (cellOfIdx ⟨⟨sr, sc⟩, ⟨rows, cols⟩⟩ (k + 1))
           else none) := by
        have hcell : cellOfIdx ⟨⟨sr, sc⟩, ⟨rows, cols⟩⟩ k =
            (⟨sr + k / cols, sc + k % cols⟩ : Cell) := rfl
        rw [hcell,
          ci_advance_qr sr sc rows cols (k / cols) (k % cols) h1 h2
            ((Nat.div_lt_iff_lt_mul hcols).mpr hklt) (Nat.mod_lt _ hcols)]
        exact step_succ_form rows cols k sr sc hklt
      simp only [CellIterator.toList, CellIterator.next, Option.some_bind]
      rw [hadv, ih (k + 1) f (by omega) (by omega)]
      rw [List.range'_succ, List.map_cons]

/-- The spec's nested row-major enumeration equals the flat enumeration by
row-major index. -/
theorem rowMajor_eq_map (sr sc rows cols : Nat) :
    rowMajorCells ⟨⟨sr, sc⟩, ⟨rows, cols⟩⟩ =
      (List.range (rows * cols)).map (cellOfIdx ⟨⟨sr, sc⟩, ⟨rows, cols⟩⟩) := by
  simp only [rowMajorCells, cellOfIdx]
  induction rows with
  | zero => simp
  | succ m ih =>
    rw [List.range_succ, List.flatMap_append, ih, Nat.succ_mul, List.range_add,
      List.map_append, List.map_map]
    congr 1
    rw [List.flatMap_cons, List.flatMap_nil, List.append_nil]
    refine List.map_congr_left ?_
    intro j hj
    rw [List.mem_range] at hj
    have hcols : 0 < cols := by omega
    have hdiv : (m * cols + j) / cols = m := by
      rw [Nat.mul_comm m cols, Nat.mul_add_div hcols, Nat.div_eq_of_lt hj, Nat.add_zero]
    have hmod : (m * cols + j) % cols = j := by
      rw [Nat.mul_comm m cols, Nat.mul_add_mod, Nat.mod_eq_of_lt hj]
    show (⟨sr + m, sc + j⟩ : Cell) = ⟨sr + (m * cols + j) / cols, sc + (m * cols + j) % cols⟩
    rw [hdiv, hmod]

/-- C2 (amended): for every region whose absolute end stays within `2 ^ 15`
on both axes — the range on which the `u16` addition in `CellIterator::new`
and the `i16`-cast subtraction in the advance step are exact — the iterator
yields exactly the region's cells, each once, in row-major order, and then
terminates (any fuel beyond `rows * cols` yields nothing more); for origin
`(0,0)` and size `(2,3)` this gives `(0,0),(0,1),(0,2),(1,0),(1,1),(1,2)`. -/
theorem cellIterator_rowMajor (sr sc rows cols fuel : Nat)
    (h1 : sr + rows ≤ 32768) (h2 : sc + cols ≤ 32768) (hf : rows * cols < fuel) :
    (CellIterator.new ⟨⟨sr, sc⟩, ⟨rows, cols⟩⟩).toList fuel =
      rowMajorCells ⟨⟨sr, sc⟩, ⟨rows, cols⟩⟩ := by
  have hnew : CellIterator.new ⟨⟨sr, sc⟩, ⟨rows, cols⟩⟩ =
      { next_cell :=
          if 0 < rows * cols then some (cellOfIdx ⟨⟨sr, sc⟩, ⟨rows, cols⟩⟩ 0) else none,
        size := ⟨sr + rows, sc + cols⟩, width := cols } := by
    simp only [CellIterator.new, Cell.add, Cell.within, u16wrap, cellOfIdx]
    have hrow : (sr + rows) % 65536 = sr + rows := Nat.mod_eq_of_lt (by omega)
    have hcol : (sc + cols) % 65536 = sc + cols := Nat.mod_eq_of_lt (by omega)
    rw [hrow, hcol, CellIterator.mk.injEq]
    refine ⟨?_, rfl, rfl⟩
    by_cases hp : 0 < rows ∧ 0 < cols
    · rw [if_pos (by omega : sr < sr + rows ∧ sc < sc + cols),
        if_pos (Nat.mul_pos hp.1 hp.2)]
      rw [Option.some.injEq, Cell.mk.injEq, Nat.zero_div, Nat.zero_mod]
      exact ⟨by omega, by omega⟩
    · have hz : rows * cols = 0 := by
        rcases (by omega : rows = 0 ∨ cols = 0) with h | h <;> rw [h] <;> omega
      rw [if_neg (by omega : ¬(sr < sr + rows ∧ sc < sc + cols)), if_neg (by omega)]
  rw [hnew, ci_run sr sc rows cols h1 h2 (rows * cols) 0 fuel (by omega) hf,
    ← List.range_eq_range', ← rowMajor_eq_map]

/-- The concrete instance named by the spec: origin `(0,0)`, size `(2,3)`. -/
theorem rowMajorCells_two_three :
    rowMajorCells ⟨⟨0, 0⟩, ⟨2, 3⟩⟩ =
      [⟨0, 0⟩, ⟨0, 1⟩, ⟨0, 2⟩, ⟨1, 0⟩, ⟨1, 1⟩, ⟨1, 2⟩] := by decide

/-- C2 witness: the amended theorem applied to the region with origin
`(0,0)` and size `(2,3)`, with fuel 7. -/
theorem cellIterator_rowMajor_witness :
    ((0 + 2 ≤ 32768 ∧ 0 + 3 ≤ 32768 ∧ 2 * 3 < 7) ∧
        rowMajorCells ⟨⟨0, 0⟩, ⟨2, 3⟩⟩ =
          [⟨0, 0⟩, ⟨0, 1⟩, ⟨0, 2⟩, ⟨1, 0⟩, ⟨1, 1⟩, ⟨1, 2⟩]) ∧
      (CellIterator.new ⟨⟨0, 0⟩, ⟨2, 3⟩⟩).toList 7 = rowMajorCells ⟨⟨0, 0⟩, ⟨2, 3⟩⟩ :=
  ⟨⟨⟨by decide, by decide, by decide⟩, by decide⟩,
    cellIterator_rowMajor 0 0 2 3 7 (by decide) (by decide) (by decide)⟩

end Rim
